import Mathlib

/-!
Verification development for the ecological/statistical engine of the AMR
wastewater analysis pipeline (`src/pipeline/ecological_analysis.py`).

The Python code is shallowly embedded over `ℚ`:

* numpy float arrays become `List ℚ` (exact rational arithmetic; the claims
  under study are about algebraic structure, not rounding),
* external numerical primitives that the code imports (`np.log`, `np.log2`,
  `scipy.stats.mannwhitneyu`, `np.linalg.eigh`) are passed in as explicit
  function parameters or, for the eigendecomposition, the embedding works
  from the eigenvalue list that `eigh` returns,
* operations that can produce a non-finite float (`nan`/`inf` from a zero
  denominator) or raise a Python exception are modelled with `Option`/`Except`.

Every definition is translated from the source file; line references are
given in the doc comments.
-/

namespace EcoAnalysis

/-- `counts = counts[counts > 0]` — the zero/negative-dropping filter applied
at the top of every `AlphaDiversity` metric (lines 85-86, 101-102, 121-122). -/
def positivePart (counts : List ℚ) : List ℚ :=
  counts.filter (fun x => decide (0 < x))

/-- `AlphaDiversity.shannon_index` (lines 78-92).  `log` is scipy-free
`np.log`, supplied as a parameter since the natural logarithm is an external
numerical primitive; the function filters positives, returns `0.0` on an
empty result, and otherwise computes `-Σ pᵢ·log pᵢ` with `pᵢ = nᵢ/Σn`. -/
def shannon_index (log : ℚ → ℚ) (counts : List ℚ) : ℚ :=
  let pos := positivePart counts
  if pos.length = 0 then 0
  else
    let s := pos.sum;
    -((pos.map (fun n => (n / s) * log (n / s))).sum)

/-- `AlphaDiversity.simpson_index` (lines 94-112): filters positives,
returns `0.0` when nothing remains or when `n_total ≤ 1`, otherwise
`1 - Σ nᵢ(nᵢ-1) / (N(N-1))`. -/
def simpson_index (counts : List ℚ) : ℚ :=
  let pos := positivePart counts
  if pos.length = 0 then 0
  else
    let n_total := pos.sum
    if n_total ≤ 1 then 0
    else 1 - (pos.map (fun n => n * (n - 1))).sum / (n_total * (n_total - 1))

/-- `AlphaDiversity.chao1_estimator` (lines 114-132): `s_obs = len(counts)`,
`f1 = Σ(counts == 1)`, `f2 = Σ(counts == 2)` over the positive part; the
bias-corrected branch is taken when `f2 == 0`. -/
def chao1_estimator (counts : List ℚ) : ℚ :=
  let pos := positivePart counts
  let s_obs : ℚ := pos.length
  let f1 : ℚ := (pos.filter (fun x => decide (x = 1))).length
  let f2 : ℚ := (pos.filter (fun x => decide (x = 2))).length
  if f2 = 0 then s_obs + (f1 * (f1 - 1)) / 2
  else s_obs + f1 ^ 2 / (2 * f2)

/-- `AlphaDiversity.observed_richness` (lines 134-138): `int(np.sum(counts > 0))`. -/
def observed_richness (counts : List ℚ) : ℕ :=
  (counts.filter (fun x => decide (0 < x))).length

/-- `AlphaDiversity.pielou_evenness` (lines 140-152): returns `0.0` when
richness ≤ 1, else `shannon / log(richness)`; the same external `np.log` is
used as in `shannon_index`. -/
def pielou_evenness (log : ℚ → ℚ) (counts : List ℚ) : ℚ :=
  let shannon := shannon_index log counts
  let richness := observed_richness counts
  if richness ≤ 1 then 0
  else shannon / log (richness : ℚ)

/-! ### Spec-side helper quantities for the Chao1 formula (`spec.md` §4.2):
observed richness `S_obs`, singleton count `f1`, doubleton count `f2`,
written from the spec's words so that the Chao1 theorem compares the code
against them. -/

/-- Spec wording: "f1 = count of features observed exactly once". -/
def singletonCount (counts : List ℚ) : ℕ :=
  ((positivePart counts).filter (fun x => decide (x = 1))).length

/-- Spec wording: "f2 = count observed exactly twice". -/
def doubletonCount (counts : List ℚ) : ℕ :=
  ((positivePart counts).filter (fun x => decide (x = 2))).length

/-! ### Beta diversity (lines 169-268) -/

/-- `BetaDiversity.bray_curtis_distance` (lines 176-185) delegates to
`scipy.spatial.distance.braycurtis`, which computes
`abs(u - v).sum() / abs(u + v).sum()`.  A zero denominator makes the float
quotient non-finite (`nan` for `0/0`), modelled as `none`. -/
def bray_curtis_distance (sample1 sample2 : List ℚ) : Option ℚ :=
  let num := (List.zipWith (fun a b => |a - b|) sample1 sample2).sum
  let den := (List.zipWith (fun a b => |a + b|) sample1 sample2).sum
  if den = 0 then none else some (num / den)

/-- numpy `.mean()` of a 1-d array: sum divided by length (`nan` on an empty
array; with `ℚ` semantics `0 / 0 = 0`, a case none of the verified claims
depends on). -/
def listMean (l : List ℚ) : ℚ := l.sum / l.length

/-- Columnwise sums of a rectangular matrix, the recursion underlying numpy
`mean(axis=0)`. -/
def colSums : List (List ℚ) → List ℚ
  | [] => []
  | [r] => r
  | r :: rs => List.zipWith (fun a b => a + b) r (colSums rs)

/-- `matrix.mean(axis=0)`: every column's sum divided by the number of
rows. -/
def colMeans (m : List (List ℚ)) : List ℚ :=
  (colSums m).map (fun s => s / (m.length : ℚ))

/-- The double-centering step of `BetaDiversity.pcoa` (lines 232-241):
square every entry, then `B = -0.5 * (D² - rowMeans - colMeans + grandMean)`
with numpy broadcasting (`rowMeans` varies along rows, `colMeans` along
columns, `grandMean` is the mean of all entries). -/
def doubleCenter (d : List (List ℚ)) : List (List ℚ) :=
  let dist_sq := d.map (fun row => row.map (fun x => x ^ 2))
  let row_means := dist_sq.map listMean
  let col_means := colMeans dist_sq
  let grand_mean := listMean dist_sq.flatten
  List.zipWith
    (fun row rm =>
      List.zipWith (fun x cm => -(1 / 2) * (x - rm - cm + grand_mean)) row col_means)
    dist_sq row_means

/-- Descending order on `ℚ`, used to model `np.argsort(eigenvalues)[::-1]`
(lines 246-249). -/
def geQ (a b : ℚ) : Prop := b ≤ a

instance : DecidableRel geQ := fun a b => inferInstanceAs (Decidable (b ≤ a))

instance : IsTotal ℚ geQ := ⟨fun a b => (le_total b a).imp id id⟩

instance : IsTrans ℚ geQ := ⟨fun _ _ _ h1 h2 => le_trans h2 h1⟩

/-- The explained-variance computation of `BetaDiversity.pcoa`
(lines 246-260), taking as input the eigenvalue list returned by the external
`np.linalg.eigh(B)`: the code sorts the eigenvalues descending, truncates to
the top `n_components` (line 252, `eigenvalues = eigenvalues[:n_components]`),
and only THEN computes `total_variance = np.sum(np.maximum(eigenvalues, 0))`
(line 259) over the already-truncated list, finally dividing (or returning
the truncated raw eigenvalues when the total is not positive, line 260). -/
def pcoaExplainedVariance (eigenvalues : List ℚ) (n_components : ℕ) : List ℚ :=
  let sorted := List.insertionSort geQ eigenvalues
  let retained := sorted.take n_components
  let total_variance := (retained.map (fun x => max x 0)).sum
  if 0 < total_variance then retained.map (fun x => x / total_variance) else retained

/-- The explained-variance rule as the spec states it (§4.3 step 6 of
`spec.md`): "Explained variance per axis = eigenvalue / sum(max(eigenvalue,0)
over ALL eigenvalues, not just the retained ones); if the total is zero,
return the raw (unnormalized) eigenvalues instead of dividing by zero."
Written from the spec's words for comparison against the code. -/
def pcoaExplainedVarianceSpecAllEigen (eigenvalues : List ℚ) (n_components : ℕ) : List ℚ :=
  let sorted := List.insertionSort geQ eigenvalues
  let retained := sorted.take n_components
  let total := (sorted.map (fun x => max x 0)).sum
  if total = 0 then retained else retained.map (fun x => x / total)

/-- The explained-variance rule of the amended claim, written from the
amended wording: each retained eigenvalue divided by the sum of
`max(eigenvalue, 0)` over the RETAINED top-`n_components` eigenvalues only;
when that sum is zero the raw retained eigenvalues are returned. -/
def pcoaExplainedVarianceRetainedSpec (eigenvalues : List ℚ) (n_components : ℕ) : List ℚ :=
  let retained := (List.insertionSort geQ eigenvalues).take n_components
  let total := (retained.map (fun x => max x 0)).sum
  if total = 0 then retained else retained.map (fun x => x / total)

/-! ### Differential abundance (lines 275-383) -/

/-- One row of the `results` record list built by
`DifferentialAbundance.compare_groups` (lines 348-355): feature name, group
means, (rounded) log2 fold change, test statistic and raw p-value. -/
structure DiffRecord where
  feature : String
  mean_group1 : ℚ
  mean_group2 : ℚ
  log2_fold_change : ℚ
  statistic : ℚ
  p_value : ℚ
deriving DecidableEq

/-- A row after `fdr_correction` added the `p_adjusted` and `significant`
columns (lines 373-381). -/
structure DiffRecordC extends DiffRecord where
  p_adjusted : ℚ
  significant : Bool
deriving DecidableEq

/-- Ordering by raw p-value, used by `result_df.sort_values("p_value")`
(line 370). -/
def pLE (a b : DiffRecord) : Prop := a.p_value ≤ b.p_value

instance : DecidableRel pLE := fun a b => inferInstanceAs (Decidable (a.p_value ≤ b.p_value))

instance : IsTotal DiffRecord pLE := ⟨fun a b => le_total a.p_value b.p_value⟩

instance : IsTrans DiffRecord pLE := ⟨fun _ _ _ h1 h2 => le_trans h1 h2⟩

/-- Ordering by adjusted p-value, used by
`result_df.sort_values("p_adjusted")` (line 363). -/
def adjLE (a b : DiffRecordC) : Prop := a.p_adjusted ≤ b.p_adjusted

instance : DecidableRel adjLE := fun a b => inferInstanceAs (Decidable (a.p_adjusted ≤ b.p_adjusted))

instance : IsTotal DiffRecordC adjLE := ⟨fun a b => le_total a.p_adjusted b.p_adjusted⟩

instance : IsTrans DiffRecordC adjLE := ⟨fun _ _ _ h1 h2 => le_trans h1 h2⟩

/-- Running minimum of a list continuing from an already-seen minimum `m`. -/
def cumminFrom (m : ℚ) : List ℚ → List ℚ
  | [] => []
  | x :: xs => min m x :: cumminFrom (min m x) xs

/-- pandas `Series.cummin`: entry `i` is the minimum of the first `i + 1`
entries. -/
def cummin : List ℚ → List ℚ
  | [] => []
  | x :: xs => x :: cumminFrom x xs

/-- `series[::-1].cummin()[::-1]` (line 378): entry `i` becomes the minimum
of the suffix starting at `i`. -/
def revCummin (l : List ℚ) : List ℚ := (cummin l.reverse).reverse

/-- The Benjamini-Hochberg candidate values
`(p_value * n / (index + 1)).clip(upper=1.0)` (lines 373-375), where `index`
is the 0-based position after sorting by p-value. -/
def bhCandidates (n : ℚ) : ℕ → List ℚ → List ℚ
  | _, [] => []
  | i, p :: ps => min (p * n / ((i : ℚ) + 1)) 1 :: bhCandidates n (i + 1) ps

/-- `DifferentialAbundance.fdr_correction` (lines 365-383): sort by raw
p-value, compute the clipped BH candidates, enforce monotonicity with a
reversed running minimum, and flag `significant = p_adjusted < alpha`. -/
def fdr_correction (result_df : List DiffRecord) (alpha : ℚ) : List DiffRecordC :=
  let n : ℚ := result_df.length
  let sorted := List.insertionSort pLE result_df
  let adj := revCummin (bhCandidates n 0 (sorted.map (fun r => r.p_value)))
  (sorted.zip adj).map (fun ra => ⟨ra.1, ra.2, decide (ra.2 < alpha)⟩)

/-- `abundance_df.loc[feature, group_samples].values`: the entries of a
feature row belonging to the samples whose label equals `group_name`
(lines 328-333); `group_labels` is aligned positionally with the row. -/
def selectGroup (group_labels : List String) (group_name : String) (values : List ℚ) : List ℚ :=
  ((group_labels.zip values).filter (fun p => p.1 == group_name)).map (fun p => p.2)

/-- `DifferentialAbundance.log2_fold_change` (lines 299-307); `log2` is the
external `np.log2`. -/
def log2_fold_change (log2 : ℚ → ℚ) (group1_mean group2_mean pseudocount : ℚ) : ℚ :=
  log2 ((group2_mean + pseudocount) / (group1_mean + pseudocount))

/-- Python `round(x, 4)` (line 352), modelled as rounding to a multiple of
`1/10000` (the half-even/half-up difference is immaterial to every claim,
which treats the fold change as an opaque value). -/
def round4 (x : ℚ) : ℚ := (round (x * 10000) : ℚ) / 10000

/-- The skip test of `compare_groups` (line 336):
`group1_values.sum() == 0 and group2_values.sum() == 0`. -/
def bothGroupsZero (group_labels : List String) (group1_name group2_name : String)
    (row : String × List ℚ) : Prop :=
  (selectGroup group_labels group1_name row.2).sum = 0
    ∧ (selectGroup group_labels group2_name row.2).sum = 0

instance (group_labels : List String) (g1 g2 : String) (row : String × List ℚ) :
    Decidable (bothGroupsZero group_labels g1 g2 row) :=
  inferInstanceAs (Decidable (And _ _))

/-- One iteration of the feature loop of `compare_groups` (lines 331-355):
`None` when the feature is skipped, otherwise the assembled record with
group means, rounded log2 fold change, test statistic and raw p-value. -/
def rowRecord (test : List ℚ → List ℚ → ℚ × ℚ) (log2 : ℚ → ℚ)
    (group_labels : List String) (group1_name group2_name : String)
    (row : String × List ℚ) : Option DiffRecord :=
  if bothGroupsZero group_labels group1_name group2_name row then none
  else
    some ⟨row.1,
      listMean (selectGroup group_labels group1_name row.2),
      listMean (selectGroup group_labels group2_name row.2),
      round4 (log2_fold_change log2
        (listMean (selectGroup group_labels group1_name row.2))
        (listMean (selectGroup group_labels group2_name row.2)) 1),
      (test (selectGroup group_labels group1_name row.2)
        (selectGroup group_labels group2_name row.2)).1,
      (test (selectGroup group_labels group1_name row.2)
        (selectGroup group_labels group2_name row.2)).2⟩

/-- `DifferentialAbundance.compare_groups` (lines 309-363).  `test` is the
external `scipy.stats.mannwhitneyu` (statistic, two-sided p-value); `log2` is
`np.log2`.  Features whose values sum to zero in BOTH groups are skipped
(lines 336-337).  When at least one record remains, BH correction runs
(guard `len(result_df) > 0`, line 360) and the frame is sorted by
`p_adjusted` (line 363).  When `results` is empty, `pd.DataFrame([])` has no
columns at all, so `result_df.sort_values("p_adjusted")` on line 363 raises
`KeyError: p_adjusted`; that exception is the `Except.error` branch. -/
def compare_groups (test : List ℚ → List ℚ → ℚ × ℚ) (log2 : ℚ → ℚ)
    (abundance_df : List (String × List ℚ)) (group_labels : List String)
    (group1_name group2_name : String) : Except String (List DiffRecordC) :=
  let results := abundance_df.filterMap
    (rowRecord test log2 group_labels group1_name group2_name)
  if results.length > 0 then
    Except.ok (List.insertionSort adjLE (fdr_correction results (1 / 20)))
  else
    Except.error "KeyError: p_adjusted"

/-! ### Abundance table utilities (lines 390-439) -/

/-- `AbundanceTable.normalize_by_total_reads` (lines 393-409): the table is a
list of `(sample_id, column)` pairs; a column whose sample id is a key of
`total_reads` is divided by that count and multiplied by `scale`, every other
column is left untouched (`if sample in total_reads` — silent pass-through).
The Python code writes into a `.copy()` of the frame, so the input is never
mutated; the embedding is pure, which models exactly that. -/
def normalize_by_total_reads (counts_df : List (String × List ℚ))
    (total_reads : List (String × ℤ)) (scale : ℚ) : List (String × List ℚ) :=
  counts_df.map (fun col =>
    match total_reads.find? (fun p => p.1 == col.1) with
    | some p => (col.1, col.2.map (fun v => v / (p.2 : ℚ) * scale))
    | none => col)

/-! ## Helper lemmas -/

lemma sum_map_mul_sub_one (l : List ℚ) :
    (l.map (fun n => n * (n - 1))).sum = (l.map (fun n => n ^ 2)).sum - l.sum := by
  induction l with
  | nil => simp
  | cons a t ih => simp only [List.map_cons, List.sum_cons, ih]; ring

lemma sum_sq_le_sq_sum (l : List ℚ) (h : ∀ x ∈ l, 0 ≤ x) :
    (l.map (fun n => n ^ 2)).sum ≤ l.sum ^ 2 := by
  induction l with
  | nil => simp
  | cons a t ih =>
    have ha : 0 ≤ a := h a (List.mem_cons_self a t)
    have ht : ∀ x ∈ t, 0 ≤ x := fun x hx => h x (List.mem_cons_of_mem a hx)
    have hts : 0 ≤ t.sum := List.sum_nonneg ht
    have h2 := ih ht
    simp only [List.map_cons, List.sum_cons]
    nlinarith [h2, ha, hts]

lemma natCast_mul_sub_one_nonneg (k : ℕ) : 0 ≤ (k : ℚ) * ((k : ℚ) - 1) := by
  rcases Nat.eq_zero_or_pos k with h | h
  · subst h; norm_num
  · have h1 : (1 : ℚ) ≤ (k : ℚ) := by exact_mod_cast h
    nlinarith

lemma one_le_of_mem_positivePart_natCast {ns : List ℕ} {x : ℚ}
    (hx : x ∈ positivePart (ns.map (fun k : ℕ => (k : ℚ)))) : 1 ≤ x := by
  rw [positivePart, List.mem_filter] at hx
  obtain ⟨hxl, hxp⟩ := hx
  rw [List.mem_map] at hxl
  obtain ⟨k, _, rfl⟩ := hxl
  have hk : 0 < (k : ℚ) := of_decide_eq_true hxp
  have hk1 : 0 < k := by exact_mod_cast hk
  have hk2 : (1 : ℕ) ≤ k := hk1
  exact_mod_cast hk2

lemma positivePart_eq_nil (counts : List ℚ) (h : ∀ x ∈ counts, x = 0) :
    positivePart counts = [] := by
  rw [positivePart, List.filter_eq_nil_iff]
  intro a ha
  simp [h a ha]

lemma positivePart_idem (cs : List ℚ) : positivePart (positivePart cs) = positivePart cs := by
  simp [positivePart, List.filter_filter]

lemma positivePart_map_mul (c : ℚ) (hc : 0 < c) (l : List ℚ) :
    positivePart (l.map (fun x => c * x)) = (positivePart l).map (fun x => c * x) := by
  simp only [positivePart]
  rw [List.filter_map]
  congr 1
  apply List.filter_congr
  intro x _
  simp only [Function.comp]
  rw [decide_eq_decide]
  constructor
  · intro hcx
    by_contra hx0
    push_neg at hx0
    nlinarith
  · intro hx0
    exact mul_pos hc hx0

lemma sum_map_mul_left' (c : ℚ) (l : List ℚ) :
    (l.map (fun x => c * x)).sum = c * l.sum := by
  induction l with
  | nil => simp
  | cons a t ih => simp [ih, mul_add]

lemma map_div_scale (log : ℚ → ℚ) (c s : ℚ) (hc : c ≠ 0) (l : List ℚ) :
    (l.map (fun x => c * x)).map (fun n => n / (c * s) * log (n / (c * s)))
      = l.map (fun n => n / s * log (n / s)) := by
  induction l with
  | nil => rfl
  | cons a t ih =>
    simp only [List.map_cons]
    rw [ih, mul_div_mul_left a s hc]

lemma simpson_index_def (counts : List ℚ) :
    simpson_index counts =
      if (positivePart counts).length = 0 then 0
      else if (positivePart counts).sum ≤ 1 then 0
      else 1 - ((positivePart counts).map (fun n => n * (n - 1))).sum /
            ((positivePart counts).sum * ((positivePart counts).sum - 1)) := rfl

/-! ## Claim C5 (Simpson index range) -/

/-- C5, counterexample: the claim quantifies over all vectors of non-negative
real counts, but the Simpson value exceeds 1 on fractional counts:
`simpson_index [1/2, 6/5] = 120/119 > 1` (the term `nᵢ(nᵢ-1)` is negative for
`0 < nᵢ < 1`, making `D < 0`). -/
theorem simpson_index_exceeds_one_on_fractional_counts :
    simpson_index [1 / 2, 6 / 5] = 120 / 119 ∧ ¬ simpson_index [1 / 2, 6 / 5] ≤ 1 := by
  constructor
  · norm_num [simpson_index, positivePart, List.filter]
  · norm_num [simpson_index, positivePart, List.filter]

/-- C5, amended: for every vector of natural-number (integer) counts, the
Simpson diversity `1 - D` lies in `[0, 1]`, and equals `0` whenever the total
retained count `N` is at most `1`. -/
theorem simpson_index_unit_interval_on_integer_counts (ns : List ℕ) :
    0 ≤ simpson_index (ns.map (fun k : ℕ => (k : ℚ)))
    ∧ simpson_index (ns.map (fun k : ℕ => (k : ℚ))) ≤ 1
    ∧ ((positivePart (ns.map (fun k : ℕ => (k : ℚ)))).sum ≤ 1 →
        simpson_index (ns.map (fun k : ℕ => (k : ℚ))) = 0) := by
  have hmem : ∀ x ∈ positivePart (ns.map (fun k : ℕ => (k : ℚ))), 1 ≤ x :=
    fun x hx => one_le_of_mem_positivePart_natCast hx
  have hnn : ∀ x ∈ positivePart (ns.map (fun k : ℕ => (k : ℚ))), 0 ≤ x :=
    fun x hx => le_trans zero_le_one (hmem x hx)
  by_cases h0 : (positivePart (ns.map (fun k : ℕ => (k : ℚ)))).length = 0
  · have hz : simpson_index (ns.map (fun k : ℕ => (k : ℚ))) = 0 := by
      rw [simpson_index_def, if_pos h0]
    rw [hz]
    exact ⟨le_refl 0, zero_le_one, fun _ => rfl⟩
  · by_cases h1 : (positivePart (ns.map (fun k : ℕ => (k : ℚ)))).sum ≤ 1
    · have hz : simpson_index (ns.map (fun k : ℕ => (k : ℚ))) = 0 := by
        rw [simpson_index_def, if_neg h0, if_pos h1]
      rw [hz]
      exact ⟨le_refl 0, zero_le_one, fun _ => rfl⟩
    · push_neg at h1
      have hSnn : 0 ≤ ((positivePart (ns.map (fun k : ℕ => (k : ℚ)))).map
          (fun n => n * (n - 1))).sum := by
        apply List.sum_nonneg
        intro y hy
        rw [List.mem_map] at hy
        obtain ⟨n, hn, rfl⟩ := hy
        have := hmem n hn
        nlinarith
      have hSle : ((positivePart (ns.map (fun k : ℕ => (k : ℚ)))).map
          (fun n => n * (n - 1))).sum ≤
          (positivePart (ns.map (fun k : ℕ => (k : ℚ)))).sum *
            ((positivePart (ns.map (fun k : ℕ => (k : ℚ)))).sum - 1) := by
        have hsq := sum_sq_le_sq_sum (positivePart (ns.map (fun k : ℕ => (k : ℚ)))) hnn
        have hms := sum_map_mul_sub_one (positivePart (ns.map (fun k : ℕ => (k : ℚ))))
        rw [hms]
        nlinarith
      have hden : 0 < (positivePart (ns.map (fun k : ℕ => (k : ℚ)))).sum *
          ((positivePart (ns.map (fun k : ℕ => (k : ℚ)))).sum - 1) := by
        have hp : (0 : ℚ) < (positivePart (ns.map (fun k : ℕ => (k : ℚ)))).sum :=
          lt_trans one_pos h1
        nlinarith
      have hd0 := div_nonneg hSnn hden.le
      have hd1 := (div_le_one hden).2 hSle
      have hval : simpson_index (ns.map (fun k : ℕ => (k : ℚ))) =
          1 - ((positivePart (ns.map (fun k : ℕ => (k : ℚ)))).map
              (fun n => n * (n - 1))).sum /
            ((positivePart (ns.map (fun k : ℕ => (k : ℚ)))).sum *
              ((positivePart (ns.map (fun k : ℕ => (k : ℚ)))).sum - 1)) := by
        rw [simpson_index_def, if_neg h0, if_neg (not_le.mpr h1)]
      refine ⟨?_, ?_, ?_⟩
      · rw [hval]; linarith
      · rw [hval]; linarith
      · intro hc
        exact absurd hc (not_le.mpr h1)

/-- C5 witness: the amended theorem applied at the concrete integer count
vector `[1]`, whose retained total is `1 ≤ 1`, forcing the `0` branch. -/
theorem simpson_index_unit_interval_on_integer_counts_witness :
    (positivePart ([1].map (fun k => ((k : ℕ) : ℚ)))).sum ≤ 1
    ∧ simpson_index ([1].map (fun k => ((k : ℕ) : ℚ))) = 0 := by
  have hyp : (positivePart ([1].map (fun k => ((k : ℕ) : ℚ)))).sum ≤ 1 := by
    norm_num [positivePart, List.filter, List.map]
  exact ⟨hyp, (simpson_index_unit_interval_on_integer_counts [1]).2.2 hyp⟩

/-! ## Claim C7 (Chao1 estimator) -/

/-- C7: the Chao1 estimator equals `S_obs + f1²/(2·f2)` when the doubleton
count `f2` is nonzero, equals the bias-corrected `S_obs + f1·(f1-1)/2` when
`f2 = 0`, and in all cases is at least the observed richness. -/
theorem chao1_estimator_formula_and_ge_observed_richness (counts : List ℚ) :
    chao1_estimator counts =
      (if doubletonCount counts = 0 then
        (observed_richness counts : ℚ)
          + ((singletonCount counts : ℚ) * ((singletonCount counts : ℚ) - 1)) / 2
      else
        (observed_richness counts : ℚ)
          + (singletonCount counts : ℚ) ^ 2 / (2 * (doubletonCount counts : ℚ)))
    ∧ (observed_richness counts : ℚ) ≤ chao1_estimator counts := by
  have heq : chao1_estimator counts =
      (if doubletonCount counts = 0 then
        (observed_richness counts : ℚ)
          + ((singletonCount counts : ℚ) * ((singletonCount counts : ℚ) - 1)) / 2
      else
        (observed_richness counts : ℚ)
          + (singletonCount counts : ℚ) ^ 2 / (2 * (doubletonCount counts : ℚ))) := by
    simp only [chao1_estimator, singletonCount, doubletonCount, observed_richness,
      positivePart, Nat.cast_eq_zero]
  refine ⟨heq, ?_⟩
  rw [heq]
  split_ifs with h2
  · have := natCast_mul_sub_one_nonneg (singletonCount counts)
    have : 0 ≤ ((singletonCount counts : ℚ) * ((singletonCount counts : ℚ) - 1)) / 2 := by
      positivity
    linarith
  · have hf2 : (0 : ℚ) ≤ (doubletonCount counts : ℚ) := Nat.cast_nonneg _
    have : 0 ≤ (singletonCount counts : ℚ) ^ 2 / (2 * (doubletonCount counts : ℚ)) := by
      positivity
    linarith

/-! ## Claim C8 (degenerate input handling in AlphaDiversity) -/

/-- C8: every AlphaDiversity function returns `0` on a vector whose entries
are all zero (which subsumes the empty vector), and the Shannon index only
depends on the positive part of its input (zero entries are dropped before
proportions are computed). -/
theorem alpha_diversity_returns_zero_on_degenerate_input (log : ℚ → ℚ) (counts : List ℚ)
    (h : ∀ x ∈ counts, x = 0) :
    shannon_index log counts = 0 ∧ simpson_index counts = 0
    ∧ chao1_estimator counts = 0 ∧ observed_richness counts = 0
    ∧ pielou_evenness log counts = 0
    ∧ ∀ cs : List ℚ, shannon_index log cs = shannon_index log (positivePart cs) := by
  have hnil := positivePart_eq_nil counts h
  have hrich : observed_richness counts = 0 := by
    have := congrArg List.length hnil
    simpa [observed_richness, positivePart] using this
  refine ⟨?_, ?_, ?_, hrich, ?_, ?_⟩
  · simp [shannon_index, hnil]
  · simp [simpson_index, hnil]
  · norm_num [chao1_estimator, hnil]
  · simp [pielou_evenness, hrich]
  · intro cs
    simp [shannon_index, positivePart_idem]

/-- C8 witness: the theorem applied at the concrete all-zero vector `[0, 0]`
with `log` taken to be the identity placeholder. -/
theorem alpha_diversity_returns_zero_on_degenerate_input_witness :
    (∀ x ∈ [(0 : ℚ), 0], x = 0)
    ∧ (shannon_index (fun x => x) [0, 0] = 0 ∧ simpson_index [0, 0] = 0
       ∧ chao1_estimator [0, 0] = 0 ∧ observed_richness [0, 0] = 0
       ∧ pielou_evenness (fun x => x) [0, 0] = 0
       ∧ ∀ cs : List ℚ,
           shannon_index (fun x => x) cs = shannon_index (fun x => x) (positivePart cs)) := by
  have hzz : ∀ x ∈ [(0 : ℚ), 0], x = 0 := by
    intro x hx
    simp at hx
    exact hx
  exact ⟨hzz, alpha_diversity_returns_zero_on_degenerate_input (fun x => x) [0, 0] hzz⟩

/-! ## Claim C10 (Shannon scale invariance) -/

/-- C10: the Shannon index is invariant under positive rescaling of the
input, for any model of the external logarithm, since the proportions
`pᵢ = nᵢ/Σn` are unchanged by the scaling. -/
theorem shannon_index_scale_invariance (log : ℚ → ℚ) (c : ℚ) (counts : List ℚ)
    (hc : 0 < c) :
    shannon_index log (counts.map (fun x => c * x)) = shannon_index log counts := by
  simp only [shannon_index]
  rw [positivePart_map_mul c hc counts]
  simp only [List.length_map]
  by_cases h0 : (positivePart counts).length = 0
  · simp [h0]
  · rw [if_neg h0, if_neg h0]
    have hcne : c ≠ 0 := ne_of_gt hc
    rw [sum_map_mul_left' c (positivePart counts),
      map_div_scale log c (positivePart counts).sum hcne (positivePart counts)]

/-- C10 witness: rescaling `[1, 2]` by `c = 2` leaves the Shannon value
unchanged (with the identity placeholder for the external log). -/
theorem shannon_index_scale_invariance_witness :
    (0 : ℚ) < 2
    ∧ shannon_index (fun x => x) ([(1 : ℚ), 2].map (fun x => 2 * x)) =
        shannon_index (fun x => x) [1, 2] :=
  ⟨by norm_num, shannon_index_scale_invariance (fun x => x) 2 [1, 2] (by norm_num)⟩

/-! ## Claim C6 (Bray-Curtis dissimilarity) -/

lemma sum_zipWith_abs_nonneg (f : ℚ → ℚ → ℚ) (s1 s2 : List ℚ) :
    0 ≤ (List.zipWith (fun a b => |f a b|) s1 s2).sum := by
  induction s1 generalizing s2 with
  | nil => simp
  | cons a t ih =>
    cases s2 with
    | nil => simp
    | cons b u =>
      simp only [List.zipWith_cons_cons, List.sum_cons]
      exact add_nonneg (abs_nonneg _) (ih u)

lemma sum_zipWith_abs_sub_le_add (s1 s2 : List ℚ)
    (h1 : ∀ a ∈ s1, 0 ≤ a) (h2 : ∀ b ∈ s2, 0 ≤ b) :
    (List.zipWith (fun a b => |a - b|) s1 s2).sum ≤
      (List.zipWith (fun a b => |a + b|) s1 s2).sum := by
  induction s1 generalizing s2 with
  | nil => simp
  | cons a t ih =>
    cases s2 with
    | nil => simp
    | cons b u =>
      simp only [List.zipWith_cons_cons, List.sum_cons]
      have ha : 0 ≤ a := h1 a (List.mem_cons_self a t)
      have hb : 0 ≤ b := h2 b (List.mem_cons_self b u)
      have hhead : |a - b| ≤ |a + b| := by
        rw [abs_of_nonneg (add_nonneg ha hb)]
        exact abs_le.mpr ⟨by linarith, by linarith⟩
      have htail := ih u (fun x hx => h1 x (List.mem_cons_of_mem a hx))
        (fun y hy => h2 y (List.mem_cons_of_mem b hy))
      exact add_le_add hhead htail

lemma sum_zipWith_abs_sub_self (x : List ℚ) :
    (List.zipWith (fun a b => |a - b|) x x).sum = 0 := by
  induction x with
  | nil => rfl
  | cons a t ih => simp [ih]

lemma sum_zipWith_abs_add_self_pos (x : List ℚ) (hx : ∃ a ∈ x, a ≠ 0) :
    0 < (List.zipWith (fun a b => |a + b|) x x).sum := by
  induction x with
  | nil => simp at hx
  | cons a t ih =>
    simp only [List.zipWith_cons_cons, List.sum_cons]
    have htail : 0 ≤ (List.zipWith (fun a b => |a + b|) t t).sum :=
      sum_zipWith_abs_nonneg (fun a b => a + b) t t
    rcases hx with ⟨b, hb, hbne⟩
    rcases List.mem_cons.mp hb with rfl | hbt
    · have h1 : 0 < |b + b| := abs_pos.mpr (fun h => hbne (by linarith))
      linarith
    · have h1 : 0 ≤ |a + a| := abs_nonneg _
      have := ih ⟨b, hbt, hbne⟩
      linarith

/-- C6, counterexample: the claim asserts Bray-Curtis(x, x) = 0 for ANY
vector x, but on the all-zero vector the scipy routine computes `0/0`,
which is `nan` (modelled `none`), not `0`. -/
theorem bray_curtis_nan_on_zero_vectors :
    bray_curtis_distance [0] [0] = none ∧ bray_curtis_distance [0] [0] ≠ some 0 := by
  have h : bray_curtis_distance [0] [0] = none := by
    norm_num [bray_curtis_distance, List.zipWith]
  exact ⟨h, by rw [h]; simp⟩

/-- C6, amended: Bray-Curtis(x, x) = 0 for every vector x having at least
one nonzero entry, and whenever the denominator is nonzero (the result is a
finite number `r`) the dissimilarity of two non-negative vectors lies in
`[0, 1]`; on a pair of all-zero vectors the scipy computation is `0/0 = nan`
(undefined) rather than a number. -/
theorem bray_curtis_identity_and_range :
    (∀ x : List ℚ, (∃ a ∈ x, a ≠ 0) → bray_curtis_distance x x = some 0)
    ∧ (∀ s1 s2 : List ℚ, (∀ a ∈ s1, 0 ≤ a) → (∀ b ∈ s2, 0 ≤ b) →
        ∀ r : ℚ, bray_curtis_distance s1 s2 = some r → 0 ≤ r ∧ r ≤ 1) := by
  constructor
  · intro x hx
    have hden := sum_zipWith_abs_add_self_pos x hx
    simp only [bray_curtis_distance]
    rw [if_neg (ne_of_gt hden), sum_zipWith_abs_sub_self x, zero_div]
  · intro s1 s2 h1 h2 r hr
    simp only [bray_curtis_distance] at hr
    by_cases hd : (List.zipWith (fun a b => |a + b|) s1 s2).sum = 0
    · rw [if_pos hd] at hr
      exact absurd hr (by simp)
    · rw [if_neg hd] at hr
      have hden : 0 < (List.zipWith (fun a b => |a + b|) s1 s2).sum :=
        lt_of_le_of_ne (sum_zipWith_abs_nonneg (fun a b => a + b) s1 s2) (Ne.symm hd)
      have hnum : 0 ≤ (List.zipWith (fun a b => |a - b|) s1 s2).sum :=
        sum_zipWith_abs_nonneg (fun a b => a - b) s1 s2
      have hle := sum_zipWith_abs_sub_le_add s1 s2 h1 h2
      have hr' : (List.zipWith (fun a b => |a - b|) s1 s2).sum /
          (List.zipWith (fun a b => |a + b|) s1 s2).sum = r := Option.some.inj hr
      rw [← hr']
      exact ⟨div_nonneg hnum hden.le, (div_le_one hden).2 hle⟩

/-- C6 witness: the theorem applied at the concrete vectors `[2]` and
`([2], [2])`, discharging the nonzero-entry and non-negativity hypotheses. -/
theorem bray_curtis_identity_and_range_witness :
    (∃ a ∈ [(2 : ℚ)], a ≠ 0) ∧ bray_curtis_distance [(2 : ℚ)] [2] = some 0
    ∧ (0 : ℚ) ≤ 0 ∧ (0 : ℚ) ≤ 1 := by
  have hex : ∃ a ∈ [(2 : ℚ)], a ≠ 0 := ⟨2, by simp, by norm_num⟩
  have h0 := bray_curtis_identity_and_range.1 [(2 : ℚ)] hex
  have hb := bray_curtis_identity_and_range.2 [(2 : ℚ)] [2]
    (by intro a ha; simp at ha; rw [ha]; norm_num)
    (by intro b hb; simp at hb; rw [hb]; norm_num) 0 h0
  exact ⟨hex, h0, hb.1, hb.2⟩

/-! ## Claim C1 (PCoA explained variance) -/

/-- C1, counterexample.  For the concrete distance matrix
`D0 = [[0,2,2],[2,0,2],[2,2,0]]` the double-centered matrix is
`B = [[4/3,-2/3,-2/3],[-2/3,4/3,-2/3],[-2/3,-2/3,4/3]]`; the three
eigenvector equations `B·(1,-1,0) = 2·(1,-1,0)`, `B·(1,1,-2) = 2·(1,1,-2)`
and `B·(1,1,1) = 0·(1,1,1)` over a basis of `ℚ³` certify that the eigenvalue
list of `B` (what `np.linalg.eigh` returns) is exactly `[2, 2, 0]`.  With
`n_components = 1` the code truncates first and divides the retained
eigenvalue `2` by the retained-only total `2`, returning `[1]`, whereas the
spec's rule (divide by the sum over ALL eigenvalues, `4`) returns `[1/2]`:
the claim is false on the code. -/
theorem pcoa_explained_variance_total_counterexample :
    doubleCenter [[0, 2, 2], [2, 0, 2], [2, 2, 0]] =
      [[4 / 3, -2 / 3, -2 / 3], [-2 / 3, 4 / 3, -2 / 3], [-2 / 3, -2 / 3, 4 / 3]]
    ∧ (doubleCenter [[0, 2, 2], [2, 0, 2], [2, 2, 0]]).map
        (fun row => (List.zipWith (fun a b => a * b) row [1, -1, 0]).sum) = [2, -2, 0]
    ∧ (doubleCenter [[0, 2, 2], [2, 0, 2], [2, 2, 0]]).map
        (fun row => (List.zipWith (fun a b => a * b) row [1, 1, -2]).sum) = [2, 2, -4]
    ∧ (doubleCenter [[0, 2, 2], [2, 0, 2], [2, 2, 0]]).map
        (fun row => (List.zipWith (fun a b => a * b) row [1, 1, 1]).sum) = [0, 0, 0]
    ∧ pcoaExplainedVariance [2, 2, 0] 1 = [1]
    ∧ pcoaExplainedVarianceSpecAllEigen [2, 2, 0] 1 = [1 / 2]
    ∧ pcoaExplainedVariance [2, 2, 0] 1 ≠ pcoaExplainedVarianceSpecAllEigen [2, 2, 0] 1 := by
  have hB : doubleCenter [[0, 2, 2], [2, 0, 2], [2, 2, 0]] =
      [[4 / 3, -2 / 3, -2 / 3], [-2 / 3, 4 / 3, -2 / 3], [-2 / 3, -2 / 3, 4 / 3]] := by
    norm_num [doubleCenter, listMean, colMeans, colSums]
  have hcode : pcoaExplainedVariance [2, 2, 0] 1 = [1] := by
    norm_num [pcoaExplainedVariance, geQ, List.insertionSort, List.orderedInsert]
  have hspec : pcoaExplainedVarianceSpecAllEigen [2, 2, 0] 1 = [1 / 2] := by
    norm_num [pcoaExplainedVarianceSpecAllEigen, geQ, List.insertionSort, List.orderedInsert]
  refine ⟨hB, ?_, ?_, ?_, hcode, hspec, ?_⟩
  · rw [hB]; norm_num [List.zipWith]
  · rw [hB]; norm_num [List.zipWith]
  · rw [hB]; norm_num [List.zipWith]
  · rw [hcode, hspec]; norm_num

/-- C1, amended: the explained-variance vector equals each retained
eigenvalue divided by the sum of `max(eigenvalue, 0)` taken over the RETAINED
top-`n_components` eigenvalues only (not over all eigenvalues); when that
retained total is zero the raw retained eigenvalues are returned.  The vector
has length `min n_components (number of eigenvalues)`. -/
theorem pcoa_explained_variance_uses_retained_total (eigenvalues : List ℚ)
    (n_components : ℕ) :
    pcoaExplainedVariance eigenvalues n_components =
      pcoaExplainedVarianceRetainedSpec eigenvalues n_components
    ∧ (pcoaExplainedVariance eigenvalues n_components).length =
        min n_components eigenvalues.length := by
  have htot : 0 ≤ (((List.insertionSort geQ eigenvalues).take n_components).map
      (fun x => max x 0)).sum := by
    apply List.sum_nonneg
    intro y hy
    rw [List.mem_map] at hy
    obtain ⟨x, _, rfl⟩ := hy
    exact le_max_right x 0
  have hlen : (List.insertionSort geQ eigenvalues).length = eigenvalues.length :=
    (List.perm_insertionSort geQ eigenvalues).length_eq
  constructor
  · simp only [pcoaExplainedVariance, pcoaExplainedVarianceRetainedSpec]
    by_cases h : (((List.insertionSort geQ eigenvalues).take n_components).map
        (fun x => max x 0)).sum = 0
    · rw [if_neg (not_lt.mpr (le_of_eq h)), if_pos h]
    · rw [if_pos (lt_of_le_of_ne htot (Ne.symm h)), if_neg h]
  · simp only [pcoaExplainedVariance]
    by_cases h : 0 < (((List.insertionSort geQ eigenvalues).take n_components).map
        (fun x => max x 0)).sum
    · rw [if_pos h, List.length_map, List.length_take, hlen]
    · rw [if_neg h, List.length_take, hlen]

/-! ## Lemmas on the running minimum and BH candidates -/

lemma length_cumminFrom (m : ℚ) (l : List ℚ) : (cumminFrom m l).length = l.length := by
  induction l generalizing m with
  | nil => rfl
  | cons x xs ih => simp [cumminFrom, ih]

lemma length_cummin (l : List ℚ) : (cummin l).length = l.length := by
  cases l with
  | nil => rfl
  | cons x xs => simp [cummin, length_cumminFrom]

lemma length_revCummin (l : List ℚ) : (revCummin l).length = l.length := by
  simp [revCummin, length_cummin]

lemma mem_cumminFrom_le (m : ℚ) (l : List ℚ) : ∀ y ∈ cumminFrom m l, y ≤ m := by
  induction l generalizing m with
  | nil => intro y hy; simp [cumminFrom] at hy
  | cons x xs ih =>
    intro y hy
    simp only [cumminFrom, List.mem_cons] at hy
    rcases hy with rfl | hy
    · exact min_le_left m x
    · exact le_trans (ih (min m x) y hy) (min_le_left m x)

lemma sorted_ge_cumminFrom (m : ℚ) (l : List ℚ) :
    List.Sorted (fun a b => b ≤ a) (cumminFrom m l) := by
  induction l generalizing m with
  | nil => exact List.sorted_nil
  | cons x xs ih =>
    rw [cumminFrom, List.sorted_cons]
    exact ⟨fun b hb => mem_cumminFrom_le (min m x) xs b hb, ih (min m x)⟩

lemma sorted_ge_cummin (l : List ℚ) : List.Sorted (fun a b => b ≤ a) (cummin l) := by
  cases l with
  | nil => exact List.sorted_nil
  | cons x xs =>
    rw [cummin, List.sorted_cons]
    exact ⟨fun b hb => le_trans (mem_cumminFrom_le x xs b hb) (le_refl x),
      sorted_ge_cumminFrom x xs⟩

lemma sorted_le_revCummin (l : List ℚ) : List.Sorted (· ≤ ·) (revCummin l) :=
  List.pairwise_reverse.mpr (sorted_ge_cummin l.reverse)

lemma mem_cummin_bound (l : List ℚ) (c : ℚ) (h : ∀ x ∈ l, x ≤ c) :
    ∀ y ∈ cummin l, y ≤ c := by
  cases l with
  | nil => intro y hy; simp [cummin] at hy
  | cons x xs =>
    intro y hy
    simp only [cummin, List.mem_cons] at hy
    rcases hy with rfl | hy
    · exact h y (List.mem_cons_self y xs)
    · exact le_trans (mem_cumminFrom_le x xs y hy) (h x (List.mem_cons_self x xs))

lemma mem_revCummin_bound (l : List ℚ) (c : ℚ) (h : ∀ x ∈ l, x ≤ c) :
    ∀ y ∈ revCummin l, y ≤ c := by
  intro y hy
  rw [revCummin, List.mem_reverse] at hy
  exact mem_cummin_bound l.reverse c (fun x hx => h x (List.mem_reverse.mp hx)) y hy

lemma length_bhCandidates (n : ℚ) (i : ℕ) (l : List ℚ) :
    (bhCandidates n i l).length = l.length := by
  induction l generalizing i with
  | nil => rfl
  | cons p ps ih => simp [bhCandidates, ih]

lemma mem_bhCandidates_le_one (n : ℚ) (i : ℕ) (l : List ℚ) :
    ∀ y ∈ bhCandidates n i l, y ≤ 1 := by
  induction l generalizing i with
  | nil => intro y hy; simp [bhCandidates] at hy
  | cons p ps ih =>
    intro y hy
    simp only [bhCandidates, List.mem_cons] at hy
    rcases hy with rfl | hy
    · exact min_le_right _ 1
    · exact ih (i + 1) y hy

/-! ## Lemmas on fdr_correction -/

lemma map_mk_zip_toRecord (alpha : ℚ) (xs : List DiffRecord) (ys : List ℚ)
    (h : xs.length = ys.length) :
    ((xs.zip ys).map
        (fun ra => (⟨ra.1, ra.2, decide (ra.2 < alpha)⟩ : DiffRecordC))).map
      (fun r => r.toDiffRecord) = xs := by
  induction xs generalizing ys with
  | nil => rfl
  | cons a t ih =>
    cases ys with
    | nil => simp at h
    | cons b u =>
      simp only [List.length_cons, Nat.succ.injEq] at h
      simp only [List.zip_cons_cons, List.map_cons]
      rw [ih u h]

lemma map_mk_zip_padj (alpha : ℚ) (xs : List DiffRecord) (ys : List ℚ)
    (h : xs.length = ys.length) :
    ((xs.zip ys).map
        (fun ra => (⟨ra.1, ra.2, decide (ra.2 < alpha)⟩ : DiffRecordC))).map
      (fun r => r.p_adjusted) = ys := by
  induction xs generalizing ys with
  | nil => cases ys with
    | nil => rfl
    | cons b u => simp at h
  | cons a t ih =>
    cases ys with
    | nil => simp at h
    | cons b u =>
      simp only [List.length_cons, Nat.succ.injEq] at h
      simp only [List.zip_cons_cons, List.map_cons]
      rw [ih u h]

lemma length_insertionSort_pLE (l : List DiffRecord) :
    (List.insertionSort pLE l).length = l.length :=
  (List.perm_insertionSort pLE l).length_eq

lemma fdr_zip_length (l : List DiffRecord) :
    (List.insertionSort pLE l).length =
      (revCummin (bhCandidates (l.length : ℚ) 0
        ((List.insertionSort pLE l).map (fun r => r.p_value)))).length := by
  rw [length_revCummin, length_bhCandidates, List.length_map]

lemma fdr_map_toRecord (l : List DiffRecord) (alpha : ℚ) :
    (fdr_correction l alpha).map (fun r => r.toDiffRecord) = List.insertionSort pLE l := by
  simp only [fdr_correction]
  exact map_mk_zip_toRecord alpha _ _ (fdr_zip_length l)

lemma fdr_map_padj (l : List DiffRecord) (alpha : ℚ) :
    (fdr_correction l alpha).map (fun r => r.p_adjusted) =
      revCummin (bhCandidates (l.length : ℚ) 0
        ((List.insertionSort pLE l).map (fun r => r.p_value))) := by
  simp only [fdr_correction]
  exact map_mk_zip_padj alpha _ _ (fdr_zip_length l)

lemma fdr_length (l : List DiffRecord) (alpha : ℚ) :
    (fdr_correction l alpha).length = l.length := by
  have h := congrArg List.length (fdr_map_toRecord l alpha)
  rw [List.length_map, length_insertionSort_pLE] at h
  exact h

/-! ## Claim C4 (FDR correction) -/

/-- C4: on every non-empty result list, `fdr_correction` returns records in
ascending raw p-value order, with adjusted p-values non-decreasing along that
order and clipped to at most `1`; a record is flagged significant iff its
adjusted p-value is strictly below `alpha`; and re-running the correction on
the already-corrected records with the same `alpha` yields the same
significance flags. -/
theorem fdr_correction_monotone_flags_idempotent (l : List DiffRecord) (alpha : ℚ)
    (h : l ≠ []) :
    List.Sorted (· ≤ ·) ((fdr_correction l alpha).map (fun r => r.p_value))
    ∧ List.Sorted (· ≤ ·) ((fdr_correction l alpha).map (fun r => r.p_adjusted))
    ∧ (∀ r ∈ fdr_correction l alpha, r.p_adjusted ≤ 1)
    ∧ (∀ r ∈ fdr_correction l alpha, (r.significant = true ↔ r.p_adjusted < alpha))
    ∧ (fdr_correction ((fdr_correction l alpha).map (fun r => r.toDiffRecord)) alpha).map
        (fun r => r.significant) = (fdr_correction l alpha).map (fun r => r.significant) := by
  refine ⟨?_, ?_, ?_, ?_, ?_⟩
  · have hmm : (fdr_correction l alpha).map (fun r => r.p_value)
        = ((fdr_correction l alpha).map (fun r => r.toDiffRecord)).map
            (fun r => r.p_value) := by
      rw [List.map_map]
      rfl
    rw [hmm, fdr_map_toRecord]
    exact (List.sorted_insertionSort pLE l).map _ (fun a b hab => hab)
  · rw [fdr_map_padj]
    exact sorted_le_revCummin _
  · intro r hr
    have hmem : r.p_adjusted ∈ (fdr_correction l alpha).map (fun r => r.p_adjusted) :=
      List.mem_map_of_mem _ hr
    rw [fdr_map_padj] at hmem
    exact mem_revCummin_bound _ 1 (mem_bhCandidates_le_one _ 0 _) _ hmem
  · intro r hr
    simp only [fdr_correction, List.mem_map] at hr
    obtain ⟨ra, _, rfl⟩ := hr
    simp [decide_eq_true_eq]
  · have hfull : fdr_correction ((fdr_correction l alpha).map (fun r => r.toDiffRecord))
        alpha = fdr_correction l alpha := by
      rw [fdr_map_toRecord]
      have hs : List.insertionSort pLE (List.insertionSort pLE l) =
          List.insertionSort pLE l :=
        (List.sorted_insertionSort pLE l).insertionSort_eq
      have hn : ((List.insertionSort pLE l).length : ℚ) = (l.length : ℚ) := by
        rw [length_insertionSort_pLE]
      simp only [fdr_correction, hs, hn]
    rw [hfull]

/-- C4 witness: the theorem applied to a concrete two-record result list with
`alpha = 1/20`. -/
theorem fdr_correction_monotone_flags_idempotent_witness :
    ([(⟨"g1", 0, 0, 0, 0, 1 / 2⟩ : DiffRecord), ⟨"g2", 0, 0, 0, 0, 1 / 4⟩] ≠ [])
    ∧ (List.Sorted (· ≤ ·)
        ((fdr_correction [⟨"g1", 0, 0, 0, 0, 1 / 2⟩, ⟨"g2", 0, 0, 0, 0, 1 / 4⟩]
          (1 / 20)).map (fun r => r.p_value))
    ∧ List.Sorted (· ≤ ·)
        ((fdr_correction [⟨"g1", 0, 0, 0, 0, 1 / 2⟩, ⟨"g2", 0, 0, 0, 0, 1 / 4⟩]
          (1 / 20)).map (fun r => r.p_adjusted))
    ∧ (∀ r ∈ fdr_correction [⟨"g1", 0, 0, 0, 0, 1 / 2⟩, ⟨"g2", 0, 0, 0, 0, 1 / 4⟩]
          (1 / 20), r.p_adjusted ≤ 1)
    ∧ (∀ r ∈ fdr_correction [⟨"g1", 0, 0, 0, 0, 1 / 2⟩, ⟨"g2", 0, 0, 0, 0, 1 / 4⟩]
          (1 / 20), (r.significant = true ↔ r.p_adjusted < 1 / 20))
    ∧ (fdr_correction
          ((fdr_correction [⟨"g1", 0, 0, 0, 0, 1 / 2⟩, ⟨"g2", 0, 0, 0, 0, 1 / 4⟩]
            (1 / 20)).map (fun r => r.toDiffRecord)) (1 / 20)).map
          (fun r => r.significant)
        = (fdr_correction [⟨"g1", 0, 0, 0, 0, 1 / 2⟩, ⟨"g2", 0, 0, 0, 0, 1 / 4⟩]
            (1 / 20)).map (fun r => r.significant)) :=
  ⟨List.cons_ne_nil _ _,
    fdr_correction_monotone_flags_idempotent
      [⟨"g1", 0, 0, 0, 0, 1 / 2⟩, ⟨"g2", 0, 0, 0, 0, 1 / 4⟩] (1 / 20)
      (List.cons_ne_nil _ _)⟩

/-! ## Claims C2 and C3 (compare_groups) -/

lemma length_filterMap_rowRecord (test : List ℚ → List ℚ → ℚ × ℚ) (log2 : ℚ → ℚ)
    (labels : List String) (g1 g2 : String) (rows : List (String × List ℚ)) :
    (rows.filterMap (rowRecord test log2 labels g1 g2)).length
      + (rows.filter (fun r => decide (bothGroupsZero labels g1 g2 r))).length
      = rows.length := by
  induction rows with
  | nil => rfl
  | cons a t ih =>
    by_cases hb : bothGroupsZero labels g1 g2 a
    · have hnone : rowRecord test log2 labels g1 g2 a = none := by
        simp [rowRecord, hb]
      simp only [List.filterMap_cons, hnone, List.filter_cons, hb, decide_True,
        if_true, List.length_cons]
      omega
    · have hsome : rowRecord test log2 labels g1 g2 a =
          some ⟨a.1,
            listMean (selectGroup labels g1 a.2),
            listMean (selectGroup labels g2 a.2),
            round4 (log2_fold_change log2 (listMean (selectGroup labels g1 a.2))
              (listMean (selectGroup labels g2 a.2)) 1),
            (test (selectGroup labels g1 a.2) (selectGroup labels g2 a.2)).1,
            (test (selectGroup labels g1 a.2) (selectGroup labels g2 a.2)).2⟩ := by
        simp [rowRecord, hb]
      simp only [List.filterMap_cons, hsome, List.filter_cons, hb, decide_False,
        Bool.false_eq_true, if_false, List.length_cons]
      omega

lemma filterMap_rowRecord_pos (test : List ℚ → List ℚ → ℚ × ℚ) (log2 : ℚ → ℚ)
    (labels : List String) (g1 g2 : String) (rows : List (String × List ℚ))
    (h : ∃ row ∈ rows, ¬ bothGroupsZero labels g1 g2 row) :
    0 < (rows.filterMap (rowRecord test log2 labels g1 g2)).length := by
  induction rows with
  | nil =>
    obtain ⟨row, hm, _⟩ := h
    simp at hm
  | cons a t ih =>
    obtain ⟨row, hm, hnb⟩ := h
    rcases List.mem_cons.mp hm with rfl | hmt
    · have hsome : ∃ r, rowRecord test log2 labels g1 g2 row = some r := by
        simp [rowRecord, hnb]
      obtain ⟨r, hr⟩ := hsome
      simp [List.filterMap_cons, hr]
    · by_cases hb : bothGroupsZero labels g1 g2 a
      · have hnone : rowRecord test log2 labels g1 g2 a = none := by
          simp [rowRecord, hb]
        simp only [List.filterMap_cons, hnone]
        exact ih ⟨row, hmt, hnb⟩
      · have hsome : ∃ r, rowRecord test log2 labels g1 g2 a = some r := by
          simp [rowRecord, hb]
        obtain ⟨r, hr⟩ := hsome
        simp [List.filterMap_cons, hr]

/-- C2: `compare_groups` on an abundance matrix whose single feature sums to
zero in both groups.  The spec requires an empty result set and "never
raised as an error"; the code instead reaches
`pd.DataFrame([]).sort_values("p_adjusted")` — an empty frame with no
columns — and raises `KeyError: p_adjusted`. -/
theorem compare_groups_raises_on_all_zero_features :
    compare_groups (fun v1 v2 => ((0 : ℚ), (1 : ℚ) / 2)) (fun _ => (0 : ℚ))
      [("gene1", [0, 0, 0, 0])]
      ["non_medical", "non_medical", "medical_influenced", "medical_influenced"]
      "non_medical" "medical_influenced" = Except.error "KeyError: p_adjusted" := by
  have h1 : selectGroup
      ["non_medical", "non_medical", "medical_influenced", "medical_influenced"]
      "non_medical" [0, 0, 0, 0] = [0, 0] := rfl
  have h2 : selectGroup
      ["non_medical", "non_medical", "medical_influenced", "medical_influenced"]
      "medical_influenced" [0, 0, 0, 0] = [0, 0] := rfl
  have hrr : rowRecord (fun v1 v2 => ((0 : ℚ), (1 : ℚ) / 2)) (fun _ => (0 : ℚ))
      ["non_medical", "non_medical", "medical_influenced", "medical_influenced"]
      "non_medical" "medical_influenced" ("gene1", [0, 0, 0, 0]) = none := by
    norm_num [rowRecord, bothGroupsZero, h1, h2, List.sum_cons, List.sum_nil]
  simp only [compare_groups, List.filterMap_cons, List.filterMap_nil, hrr]
  simp

/-- C3, counterexample: on a two-feature matrix in which both features sum to
zero in both groups, the claim predicts an output with `2 - 2 = 0` rows
(sorted trivially); the code produces no output at all — it raises
`KeyError: p_adjusted` — so the universally-quantified claim fails. -/
theorem compare_groups_no_output_on_fully_zero_matrix :
    compare_groups (fun v1 v2 => ((0 : ℚ), (1 : ℚ) / 2)) (fun _ => (0 : ℚ))
      [("g1", [0, 0]), ("g2", [0, 0])] ["a", "b"] "a" "b"
      = Except.error "KeyError: p_adjusted"
    ∧ ∀ out : List DiffRecordC,
        compare_groups (fun v1 v2 => ((0 : ℚ), (1 : ℚ) / 2)) (fun _ => (0 : ℚ))
          [("g1", [0, 0]), ("g2", [0, 0])] ["a", "b"] "a" "b" ≠ Except.ok out := by
  have h : compare_groups (fun v1 v2 => ((0 : ℚ), (1 : ℚ) / 2)) (fun _ => (0 : ℚ))
      [("g1", [0, 0]), ("g2", [0, 0])] ["a", "b"] "a" "b"
      = Except.error "KeyError: p_adjusted" := by
    have h1 : selectGroup ["a", "b"] "a" [0, 0] = [0] := rfl
    have h2 : selectGroup ["a", "b"] "b" [0, 0] = [0] := rfl
    have hr1 : rowRecord (fun v1 v2 => ((0 : ℚ), (1 : ℚ) / 2)) (fun _ => (0 : ℚ))
        ["a", "b"] "a" "b" ("g1", [0, 0]) = none := by
      norm_num [rowRecord, bothGroupsZero, h1, h2, List.sum_cons, List.sum_nil]
    have hr2 : rowRecord (fun v1 v2 => ((0 : ℚ), (1 : ℚ) / 2)) (fun _ => (0 : ℚ))
        ["a", "b"] "a" "b" ("g2", [0, 0]) = none := by
      norm_num [rowRecord, bothGroupsZero, h1, h2, List.sum_cons, List.sum_nil]
    simp only [compare_groups, List.filterMap_cons, List.filterMap_nil, hr1, hr2]
    simp
  exact ⟨h, fun out => by rw [h]; simp⟩

/-- C3, amended: for every abundance matrix containing at least one feature
whose values do NOT sum to zero in both groups, `compare_groups` succeeds and
returns exactly `rows - (number of features summing to zero in both groups)`
records, sorted by adjusted p-value ascending. -/
theorem compare_groups_row_count_and_sorted
    (test : List ℚ → List ℚ → ℚ × ℚ) (log2 : ℚ → ℚ)
    (rows : List (String × List ℚ)) (labels : List String) (g1 g2 : String)
    (h : ∃ row ∈ rows, ¬ bothGroupsZero labels g1 g2 row) :
    ∃ out, compare_groups test log2 rows labels g1 g2 = Except.ok out
      ∧ out.length = rows.length
          - (rows.filter (fun r => decide (bothGroupsZero labels g1 g2 r))).length
      ∧ List.Sorted (· ≤ ·) (out.map (fun r => r.p_adjusted)) := by
  have hpos := filterMap_rowRecord_pos test log2 labels g1 g2 rows h
  refine ⟨List.insertionSort adjLE
    (fdr_correction (rows.filterMap (rowRecord test log2 labels g1 g2)) (1 / 20)),
    ?_, ?_, ?_⟩
  · simp only [compare_groups]
    rw [if_pos hpos]
  · rw [(List.perm_insertionSort adjLE _).length_eq, fdr_length]
    have hsum := length_filterMap_rowRecord test log2 labels g1 g2 rows
    omega
  · exact (List.sorted_insertionSort adjLE _).map _ (fun a b hab => hab)

/-- C3 witness: the amended theorem applied to the concrete matrix
`[("g1", [1, 2]), ("g2", [0, 0])]` with labels `["a", "b"]`: one feature is
retained, one skipped, so the output has `2 - 1 = 1` row. -/
theorem compare_groups_row_count_and_sorted_witness :
    (∃ row ∈ [("g1", [(1 : ℚ), 2]), ("g2", [0, 0])],
        ¬ bothGroupsZero ["a", "b"] "a" "b" row)
    ∧ ∃ out, compare_groups (fun v1 v2 => ((0 : ℚ), (1 : ℚ) / 2)) (fun _ => (0 : ℚ))
          [("g1", [(1 : ℚ), 2]), ("g2", [0, 0])] ["a", "b"] "a" "b" = Except.ok out
        ∧ out.length = 2 - ([("g1", [(1 : ℚ), 2]), ("g2", [0, 0])].filter
            (fun r => decide (bothGroupsZero ["a", "b"] "a" "b" r))).length
        ∧ List.Sorted (· ≤ ·) (out.map (fun r => r.p_adjusted)) := by
  have hyp : ∃ row ∈ [("g1", [(1 : ℚ), 2]), ("g2", [0, 0])],
      ¬ bothGroupsZero ["a", "b"] "a" "b" row := by
    refine ⟨("g1", [(1 : ℚ), 2]), by simp, ?_⟩
    have h1 : selectGroup ["a", "b"] "a" [1, 2] = [1] := rfl
    have h2 : selectGroup ["a", "b"] "b" [1, 2] = [2] := rfl
    norm_num [bothGroupsZero, h1, h2, List.sum_cons, List.sum_nil]
  exact ⟨hyp, compare_groups_row_count_and_sorted
    (fun v1 v2 => ((0 : ℚ), (1 : ℚ) / 2)) (fun _ => (0 : ℚ))
    [("g1", [(1 : ℚ), 2]), ("g2", [0, 0])] ["a", "b"] "a" "b" hyp⟩

/-! ## Claim C9 (normalize_by_total_reads) -/

/-- C9: normalization preserves the number and order of sample columns; a
column whose sample id is absent from `total_reads` is returned exactly
unmodified (missing keys are a silent no-op, not an error), and a column
whose id maps to `t` is divided entrywise by `t` and multiplied by `scale`.
The embedding is a pure function of the copied frame, which is precisely the
Python behavior of writing into `counts_df.copy()`: the input is never
mutated. -/
theorem normalize_by_total_reads_frame (counts_df : List (String × List ℚ))
    (total_reads : List (String × ℤ)) (scale : ℚ) :
    (normalize_by_total_reads counts_df total_reads scale).length = counts_df.length
    ∧ (∀ (i : ℕ) (col : String × List ℚ), counts_df.get? i = some col →
        (total_reads.find? (fun p => p.1 == col.1) = none →
          (normalize_by_total_reads counts_df total_reads scale).get? i = some col)
        ∧ (∀ t : String × ℤ, total_reads.find? (fun p => p.1 == col.1) = some t →
          (normalize_by_total_reads counts_df total_reads scale).get? i =
            some (col.1, col.2.map (fun v => v / (t.2 : ℚ) * scale))))
    ∧ normalize_by_total_reads counts_df [] scale = counts_df := by
  refine ⟨?_, ?_, ?_⟩
  · simp [normalize_by_total_reads]
  · intro i col hcol
    have hmap : (normalize_by_total_reads counts_df total_reads scale).get? i
        = (counts_df.get? i).map (fun col =>
            match total_reads.find? (fun p => p.1 == col.1) with
            | some p => (col.1, col.2.map (fun v => v / (p.2 : ℚ) * scale))
            | none => col) := by
      simp [normalize_by_total_reads]
    constructor
    · intro hnone
      rw [hmap, hcol]
      simp [hnone]
    · intro t ht
      rw [hmap, hcol]
      simp [ht]
  · simp [normalize_by_total_reads]

/-- C9 witness: a two-column table in which `"s1"` has a total-reads entry
and `"s2"` does not: the `"s2"` column passes through unmodified and the
`"s1"` column is divided by `2` and scaled. -/
theorem normalize_by_total_reads_frame_witness :
    ([("s1", [(2 : ℚ), 4]), ("s2", [3])].get? 1 = some ("s2", [(3 : ℚ)]))
    ∧ ([("s1", (2 : ℤ))].find? (fun p => p.1 == "s2") = none)
    ∧ (normalize_by_total_reads [("s1", [(2 : ℚ), 4]), ("s2", [3])]
        [("s1", (2 : ℤ))] 1000000).get? 1 = some ("s2", [(3 : ℚ)])
    ∧ ([("s1", [(2 : ℚ), 4]), ("s2", [3])].get? 0 = some ("s1", [(2 : ℚ), 4]))
    ∧ ([("s1", (2 : ℤ))].find? (fun p => p.1 == "s1") = some ("s1", (2 : ℤ)))
    ∧ (normalize_by_total_reads [("s1", [(2 : ℚ), 4]), ("s2", [3])]
        [("s1", (2 : ℤ))] 1000000).get? 0
      = some ("s1", [(2 : ℚ), 4].map (fun v => v / ((2 : ℤ) : ℚ) * 1000000)) := by
  have h := normalize_by_total_reads_frame [("s1", [(2 : ℚ), 4]), ("s2", [3])]
    [("s1", (2 : ℤ))] 1000000
  have habs := (h.2.1 1 ("s2", [(3 : ℚ)]) rfl).1 rfl
  have hpres := (h.2.1 0 ("s1", [(2 : ℚ), 4]) rfl).2 ("s1", (2 : ℤ)) rfl
  exact ⟨rfl, rfl, habs, rfl, rfl, hpres⟩

end EcoAnalysis
